import Mathlib

/-!
Verification of the tensor-aware RPC transport layer declared in
torch/csrc/distributed/rpc/utils.h: the wire codec (wireSerialize /
wireDeserialize), the buffer shrinker (cloneSparseTensors), the
wrapped-payload splicer (writeWrappedPayload / readWrappedPayload), the
response dispatcher (deserializeResponse) and the lazily populated
per-device stream context (LazyStreamContext).

Bytes are modelled as natural numbers, byte strings as lists; machine
sizes that the C++ stores in fixed-width fields carry explicit
`< 2 ^ 64` (or `< 2 ^ 32`) side conditions where a theorem needs them.
-/

set_option autoImplicit false

namespace RpcUtils

/-! ### Little-endian fixed-width byte helpers -/

/-- `toBytes k n` is the `k`-byte little-endian encoding of `n % 256 ^ k`. -/
def toBytes : Nat → Nat → List Nat
  | 0, _ => []
  | k + 1, n => n % 256 :: toBytes k (n / 256)

/-- Little-endian value of a byte list. -/
def fromBytes : List Nat → Nat
  | [] => 0
  | b :: bs => b + 256 * fromBytes bs

theorem toBytes_length (k n : Nat) : (toBytes k n).length = k := by
  induction k generalizing n with
  | zero => rfl
  | succ k ih => simp [toBytes, ih]

theorem fromBytes_toBytes (k n : Nat) : fromBytes (toBytes k n) = n % 256 ^ k := by
  induction k generalizing n with
  | zero => simp [toBytes, fromBytes, Nat.mod_one]
  | succ k ih =>
      simp only [toBytes, fromBytes, ih]
      rw [pow_succ', Nat.mod_mul]

theorem fromBytes_toBytes_of_lt {k n : Nat} (h : n < 256 ^ k) :
    fromBytes (toBytes k n) = n := by
  rw [fromBytes_toBytes, Nat.mod_eq_of_lt h]

/-! ### Wire codec

Modelled from the spec: the bodies of `wireSerialize` and
`wireDeserialize` are not under src/ (utils.h only declares them).
The spec describes the Wire Frame as: a count of buffers, then one slot
per buffer holding a fixed-size element-type tag (4 bytes here) and an
8-byte byte length, then a length-prefixed opaque blob, then the
concatenated raw buffer bytes.  Serialization fails only when the buffer
count does not fit the 8-byte count field; deserialization fails with a
format error (`none`) whenever a length field would read past the end of
the input. -/

/-- A raw array buffer on the wire: an element-type tag and its bytes. -/
structure WireTensor where
  dtype : Nat
  data : List Nat
  deriving DecidableEq, Repr

/-- Read exactly `n` bytes, failing when fewer remain. -/
def readBytes (n : Nat) (l : List Nat) : Option (List Nat × List Nat) :=
  if n ≤ l.length then some (l.take n, l.drop n) else none

/-- Read `n` buffer slots: a 4-byte dtype tag and an 8-byte length each. -/
def readHeaders : Nat → List Nat → Option (List (Nat × Nat) × List Nat)
  | 0, l => some ([], l)
  | n + 1, l =>
      (readBytes 4 l).bind fun p =>
        (readBytes 8 p.2).bind fun q =>
          (readHeaders n q.2).bind fun r =>
            some ((fromBytes p.1, fromBytes q.1) :: r.1, r.2)

/-- Read each buffer's raw bytes, as declared by the decoded headers. -/
def readDatas : List (Nat × Nat) → List Nat → Option (List WireTensor × List Nat)
  | [], l => some ([], l)
  | h :: hs, l =>
      (readBytes h.2 l).bind fun p =>
        (readDatas hs p.2).bind fun q =>
          some (⟨h.1, p.1⟩ :: q.1, q.2)

/-- Encoded buffer slots: 4-byte dtype tag and 8-byte length per buffer. -/
def encodeHeaders : List WireTensor → List Nat
  | [] => []
  | t :: ts => toBytes 4 t.dtype ++ (toBytes 8 t.data.length ++ encodeHeaders ts)

/-- The concatenated raw bytes of all buffers. -/
def concatData : List WireTensor → List Nat
  | [] => []
  | t :: ts => t.data ++ concatData ts

/-- Modelled from the spec: Wire Frame emitted by `wireSerialize` —
count, buffer slots, blob length, blob, raw buffer bytes; fails only if
the buffer count does not fit the 8-byte count field. -/
def wireSerialize (payload : List Nat) (tensors : List WireTensor) :
    Option (List Nat) :=
  if tensors.length < 2 ^ 64 then
    some (toBytes 8 tensors.length ++
      (encodeHeaders tensors ++
        (toBytes 8 payload.length ++ (payload ++ concatData tensors))))
  else none

/-- Modelled from the spec: `wireDeserialize` reads the frame back,
keeping the not-yet-consumed suffix; every read is bounds checked. -/
def wireDeserializeRest (l : List Nat) :
    Option ((List Nat × List WireTensor) × List Nat) :=
  (readBytes 8 l).bind fun c =>
    (readHeaders (fromBytes c.1) c.2).bind fun h =>
      (readBytes 8 h.2).bind fun n =>
        (readBytes (fromBytes n.1) n.2).bind fun p =>
          (readDatas h.1 p.2).bind fun d =>
            some ((p.1, d.1), d.2)

/-- Modelled from the spec: decode the opaque blob and the buffers. -/
def wireDeserialize (l : List Nat) : Option (List Nat × List WireTensor) :=
  (wireDeserializeRest l).map Prod.fst

/-! ### Exact-consumption parsers

`Consumes P a v` says the bounds-checked reader `P` consumes exactly the
bytes `a`, produces `v`, returns any appended suffix untouched, and
fails on every strict prefix of `a`.  This is the invariant that drives
both the round-trip and the truncation-safety theorems. -/

/-- `P` consumes exactly `a` producing `v`, and fails on strict prefixes. -/
def Consumes {α : Type} (P : List Nat → Option (α × List Nat))
    (a : List Nat) (v : α) : Prop :=
  (∀ b, P (a ++ b) = some (v, b)) ∧ ∀ j, j < a.length → P (a.take j) = none

theorem consumes_readBytes (a : List Nat) : Consumes (readBytes a.length) a a := by
  constructor
  · intro b
    have hlen : a.length ≤ (a ++ b).length := by simp
    simp [readBytes, hlen, List.take_append_eq_append_take,
      List.drop_append_eq_append_drop]
  · intro j hj
    have hlen : (a.take j).length = j := by
      simp [List.length_take, Nat.min_eq_left (Nat.le_of_lt hj)]
    simp [readBytes, hlen, Nat.not_le_of_lt hj]

theorem consumes_bind {α β : Type} {P : List Nat → Option (α × List Nat)}
    {Q : α → List Nat → Option (β × List Nat)} {a b : List Nat} {v : α} {w : β}
    (hP : Consumes P a v) (hQ : Consumes (Q v) b w) :
    Consumes (fun l => (P l).bind fun p => Q p.1 p.2) (a ++ b) w := by
  constructor
  · intro c
    rw [List.append_assoc]
    simp [hP.1, hQ.1]
  · intro j hj
    by_cases hja : j < a.length
    · have : (a ++ b).take j = a.take j := by
        rw [List.take_append_eq_append_take]
        simp [Nat.sub_eq_zero_of_le (Nat.le_of_lt hja)]
      simp [this, hP.2 j hja]
    · push_neg at hja
      have hsplit : (a ++ b).take j = a ++ b.take (j - a.length) := by
        rw [List.take_append_eq_append_take, List.take_of_length_le hja]
      have hjb : j - a.length < b.length := by
        simp only [List.length_append] at hj
        omega
      simp [hsplit, hP.1, hQ.2 _ hjb]

theorem consumes_map {α β : Type} {P : List Nat → Option (α × List Nat)}
    {a : List Nat} {v : α} (f : α → β) (hP : Consumes P a v) :
    Consumes (fun l => (P l).bind fun p => some (f p.1, p.2)) a (f v) := by
  constructor
  · intro b
    simp [hP.1]
  · intro j hj
    simp [hP.2 j hj]

theorem consumes_congr {α : Type} {P R : List Nat → Option (α × List Nat)}
    {a : List Nat} {v : α} (h : ∀ l, P l = R l) (hP : Consumes P a v) :
    Consumes R a v :=
  ⟨fun b => (h (a ++ b)).symm.trans (hP.1 b),
   fun j hj => (h (a.take j)).symm.trans (hP.2 j hj)⟩

theorem consumes_readBytes_of_length {n : Nat} (a : List Nat)
    (h : a.length = n) : Consumes (readBytes n) a a :=
  h ▸ consumes_readBytes a

/-- The side conditions under which every fixed-width field of the frame
can represent its value: dtype tags fit 4 bytes, lengths fit 8 bytes. -/
def TensorsFit (tensors : List WireTensor) : Prop :=
  ∀ t ∈ tensors, t.dtype < 2 ^ 32 ∧ t.data.length < 2 ^ 64

instance (tensors : List WireTensor) : Decidable (TensorsFit tensors) :=
  List.decidableBAll _ tensors

theorem consumes_readHeaders (ts : List WireTensor) (h : TensorsFit ts) :
    Consumes (readHeaders ts.length) (encodeHeaders ts)
      (ts.map fun t => (t.dtype, t.data.length)) := by
  induction ts with
  | nil =>
      exact ⟨fun b => rfl, fun j hj => absurd hj (by simp [encodeHeaders])⟩
  | cons t ts ih =>
      have hd : t.dtype < 2 ^ 32 := (h t (List.mem_cons_self t ts)).1
      have hl : t.data.length < 2 ^ 64 := (h t (List.mem_cons_self t ts)).2
      have hts : TensorsFit ts := fun u hu => h u (List.mem_cons_of_mem t hu)
      have h4 : Consumes (readBytes 4) (toBytes 4 t.dtype) (toBytes 4 t.dtype) :=
        consumes_readBytes_of_length _ (toBytes_length 4 t.dtype)
      have h8 : Consumes (readBytes 8) (toBytes 8 t.data.length)
          (toBytes 8 t.data.length) :=
        consumes_readBytes_of_length _ (toBytes_length 8 t.data.length)
      have hrec := ih hts
      have hmapped := consumes_map
        (fun r => (fromBytes (toBytes 4 t.dtype), fromBytes (toBytes 8 t.data.length)) :: r)
        hrec
      have h2 := consumes_bind (Q := fun c l =>
        (readHeaders ts.length l).bind fun r =>
          some ((fromBytes (toBytes 4 t.dtype), fromBytes c) :: r.1, r.2)) h8 hmapped
      have h3 := consumes_bind (Q := fun c l =>
        (readBytes 8 l).bind fun q =>
          (readHeaders ts.length q.2).bind fun r =>
            some ((fromBytes c, fromBytes q.1) :: r.1, r.2)) h4 h2
      have hval :
          ((fromBytes (toBytes 4 t.dtype), fromBytes (toBytes 8 t.data.length)) : Nat × Nat) =
            (t.dtype, t.data.length) := by
        rw [fromBytes_toBytes_of_lt hd, fromBytes_toBytes_of_lt hl]
      rw [hval] at h3
      exact consumes_congr (fun l => rfl) h3

theorem consumes_readDatas (ts : List WireTensor) :
    Consumes (readDatas (ts.map fun t => (t.dtype, t.data.length)))
      (concatData ts) ts := by
  induction ts with
  | nil =>
      exact ⟨fun b => rfl, fun j hj => absurd hj (by simp [concatData])⟩
  | cons t ts ih =>
      have hb : Consumes (readBytes t.data.length) t.data t.data :=
        consumes_readBytes t.data
      have h2 := consumes_map
        (fun r => WireTensor.mk t.dtype t.data :: r) ih
      have hall := consumes_bind (Q := fun c l =>
        (readDatas (ts.map fun u => (u.dtype, u.data.length)) l).bind fun q =>
          some (WireTensor.mk t.dtype c :: q.1, q.2)) hb h2
      exact consumes_congr (fun l => rfl) hall

set_option maxHeartbeats 1000000 in
theorem consumes_wireDeserializeRest (payload : List Nat) (ts : List WireTensor)
    (hp : payload.length < 2 ^ 64) (ht : TensorsFit ts) (hc : ts.length < 2 ^ 64) :
    Consumes wireDeserializeRest
      (toBytes 8 ts.length ++
        (encodeHeaders ts ++
          (toBytes 8 payload.length ++ (payload ++ concatData ts))))
      (payload, ts) := by
  obtain ⟨M, hM⟩ : ∃ M, (ts.map fun u => (u.dtype, u.data.length)) = M := ⟨_, rfl⟩
  have hpay : Consumes (readBytes (fromBytes (toBytes 8 payload.length)))
      payload payload :=
    consumes_readBytes_of_length payload (fromBytes_toBytes_of_lt hp).symm
  have hD : Consumes (readDatas M) (concatData ts) ts := by
    rw [← hM]
    exact consumes_readDatas ts
  have h5 := consumes_map
    (fun r => ((payload, r) : List Nat × List WireTensor)) hD
  have h45 := consumes_bind (Q := fun a l =>
    (readDatas M l).bind fun d => some ((a, d.1), d.2)) hpay h5
  have h38 : Consumes (readBytes 8) (toBytes 8 payload.length)
      (toBytes 8 payload.length) :=
    consumes_readBytes_of_length _ (toBytes_length 8 payload.length)
  have h345 := consumes_bind (Q := fun c l =>
    (readBytes (fromBytes c) l).bind fun p =>
      (readDatas M p.2).bind fun d =>
        some ((p.1, d.1), d.2)) h38 h45
  have hH : Consumes (readHeaders (fromBytes (toBytes 8 ts.length)))
      (encodeHeaders ts) M := by
    rw [fromBytes_toBytes_of_lt hc, ← hM]
    exact consumes_readHeaders ts ht
  have h2345 := consumes_bind (Q := fun m l =>
    (readBytes 8 l).bind fun n =>
      (readBytes (fromBytes n.1) n.2).bind fun p =>
        (readDatas m p.2).bind fun d =>
          some ((p.1, d.1), d.2)) hH h345
  have h18 : Consumes (readBytes 8) (toBytes 8 ts.length) (toBytes 8 ts.length) :=
    consumes_readBytes_of_length _ (toBytes_length 8 ts.length)
  have hall := consumes_bind (Q := fun c l =>
    (readHeaders (fromBytes c) l).bind fun m =>
      (readBytes 8 m.2).bind fun n =>
        (readBytes (fromBytes n.1) n.2).bind fun p =>
          (readDatas m.1 p.2).bind fun d =>
            some ((p.1, d.1), d.2)) h18 h2345
  exact consumes_congr (fun l => rfl) hall

/-- C1: decoding the bytes produced by encoding returns exactly the
original opaque blob and the original buffer sequence — same count,
element types, byte lengths and bytes, in order.  The hypotheses say
each fixed-width field of the frame can represent its value, which the
C++ sizes (`size_t`, 64-bit lengths) guarantee. -/
theorem wireSerialize_wireDeserialize_roundTrip
    (payload : List Nat) (tensors : List WireTensor)
    (hp : payload.length < 2 ^ 64) (ht : TensorsFit tensors)
    (hc : tensors.length < 2 ^ 64) :
    ∃ enc, wireSerialize payload tensors = some enc ∧
      wireDeserialize enc = some (payload, tensors) := by
  refine ⟨_, by rw [wireSerialize, if_pos hc], ?_⟩
  have h := (consumes_wireDeserializeRest payload tensors hp ht hc).1 []
  rw [List.append_nil] at h
  rw [wireDeserialize, h]
  rfl

theorem c1_roundTrip_witness :
    ∃ enc,
      wireSerialize [104, 101, 108, 108, 111]
        [⟨0, [1, 2, 3, 4]⟩, ⟨1, [1, 2, 3, 4, 5, 6, 7, 8]⟩] = some enc ∧
      wireDeserialize enc =
        some ([104, 101, 108, 108, 111],
          [⟨0, [1, 2, 3, 4]⟩, ⟨1, [1, 2, 3, 4, 5, 6, 7, 8]⟩]) :=
  wireSerialize_wireDeserialize_roundTrip _ _ (by decide) (by decide) (by decide)

/-- C2: decoding any strict prefix of a valid encoded frame fails with a
format error (`none`): every length field is bounds checked, so no read
ever passes the end of the input. -/
theorem wireDeserialize_truncation
    (payload : List Nat) (tensors : List WireTensor) (enc : List Nat) (j : Nat)
    (hp : payload.length < 2 ^ 64) (ht : TensorsFit tensors)
    (he : wireSerialize payload tensors = some enc) (hj : j < enc.length) :
    wireDeserialize (enc.take j) = none := by
  have hc : tensors.length < 2 ^ 64 := by
    by_contra h
    rw [wireSerialize, if_neg h] at he
    exact Option.noConfusion he
  rw [wireSerialize, if_pos hc, Option.some.injEq] at he
  subst he
  have h := (consumes_wireDeserializeRest payload tensors hp ht hc).2 j hj
  rw [wireDeserialize, h]
  rfl

theorem c2_truncation_witness :
    wireDeserialize
      ((toBytes 8 1 ++
        (encodeHeaders [⟨2, [9, 9]⟩] ++
          (toBytes 8 3 ++ ([7, 7, 7] ++ concatData [⟨2, [9, 9]⟩])))).take 20) =
      none :=
  wireDeserialize_truncation [7, 7, 7] [⟨2, [9, 9]⟩] _ 20
    (by decide) (by decide) (by decide) (by decide)

/-! ### Buffer shrinker

Modelled from the spec: the body of `cloneSparseTensors` is not under
src/ (utils.h only declares it).  The spec policy: clone a buffer when
its referenced byte span is less than half the size of the allocation it
views and the absolute wasted bytes exceed a fixed minimum hurdle; all
other buffers pass through unchanged, preserving order and count. -/

/-- A buffer as the shrinker sees it: the byte span it references and
the size of the (possibly larger) allocation it views.  A buffer owns
its storage exactly when the two coincide. -/
structure SparseBuf where
  usedBytes : Nat
  allocBytes : Nat
  deriving DecidableEq, Repr

/-- The fixed minimum wasted-byte hurdle below which cloning is not
worth its overhead (a policy constant, not semantically load bearing). -/
def kMinWastedBytes : Nat := 8192

/-- A tight copy: the allocation shrinks to exactly the referenced span. -/
def SparseBuf.clone (t : SparseBuf) : SparseBuf :=
  ⟨t.usedBytes, t.usedBytes⟩

/-- Modelled from the spec: clone exactly when the referenced span is
less than half the allocation and the wasted bytes exceed the hurdle. -/
def worthRecopying (t : SparseBuf) : Bool :=
  decide (2 * t.usedBytes < t.allocBytes) &&
    decide (kMinWastedBytes < t.allocBytes - t.usedBytes)

/-- Modelled from the spec: `cloneSparseTensors` passes every buffer
through, deep-copying exactly those worth recopying. -/
def cloneSparseTensors (tensors : List SparseBuf) : List SparseBuf :=
  tensors.map fun t => if worthRecopying t then t.clone else t

theorem cloneSparseTensors_cons (t : SparseBuf) (ts : List SparseBuf) :
    cloneSparseTensors (t :: ts) =
      (if worthRecopying t then t.clone else t) :: cloneSparseTensors ts := rfl

theorem worthRecopying_clone (t : SparseBuf) :
    worthRecopying t.clone = false := by
  simp [worthRecopying, SparseBuf.clone]

/-- C3: a view spanning exactly half its allocation is not cloned; a
view spanning less than half whose wasted bytes exceed the fixed hurdle
is cloned; a buffer owning its whole allocation is never cloned. -/
theorem cloneSparseTensors_threshold (t : SparseBuf) :
    (2 * t.usedBytes = t.allocBytes → cloneSparseTensors [t] = [t]) ∧
    (2 * t.usedBytes < t.allocBytes →
      kMinWastedBytes < t.allocBytes - t.usedBytes →
      cloneSparseTensors [t] = [t.clone]) ∧
    (t.usedBytes = t.allocBytes → cloneSparseTensors [t] = [t]) := by
  refine ⟨fun h => ?_, fun h1 h2 => ?_, fun h => ?_⟩
  · have hlt : ¬ 2 * t.usedBytes < t.allocBytes := by omega
    simp [cloneSparseTensors, worthRecopying, hlt]
  · simp [cloneSparseTensors, worthRecopying, h1, h2]
  · have hlt : ¬ 2 * t.usedBytes < t.allocBytes := by omega
    simp [cloneSparseTensors, worthRecopying, hlt]

theorem c3_threshold_witness :
    cloneSparseTensors [⟨10, 20⟩] = [⟨10, 20⟩] ∧
    cloneSparseTensors [⟨4000, 20000⟩] = [SparseBuf.clone ⟨4000, 20000⟩] ∧
    cloneSparseTensors [⟨5, 5⟩] = [⟨5, 5⟩] :=
  ⟨(cloneSparseTensors_threshold ⟨10, 20⟩).1 (by decide),
   (cloneSparseTensors_threshold ⟨4000, 20000⟩).2.1 (by decide) (by decide),
   (cloneSparseTensors_threshold ⟨5, 5⟩).2.2 (by decide)⟩

/-- C4: the shrinker is idempotent — a cloned buffer owns its storage,
so a second pass never clones again, and untouched buffers stay put. -/
theorem cloneSparseTensors_idempotent (tensors : List SparseBuf) :
    cloneSparseTensors (cloneSparseTensors tensors) = cloneSparseTensors tensors := by
  induction tensors with
  | nil => rfl
  | cons t ts ih =>
      rw [cloneSparseTensors_cons, cloneSparseTensors_cons, ih]
      by_cases h : worthRecopying t = true
      · rw [if_pos h, if_neg (by simp [worthRecopying_clone])]
      · rw [if_neg h, if_neg h]

/-! ### Wrapped-payload splicer

Modelled from the spec: the bodies of `writeWrappedPayload` and
`readWrappedPayload` are not under src/ (utils.h only declares them).
The wrapper rides inside the outer payload as a length-prefixed trailing
region; the unwrapper reads that region back off the end of the payload
(the 8-byte length field sits adjacent to the end so the reader finds it
first), fails if the trailing length exceeds the remaining payload size,
and truncates the payload back down to the original bytes.  The wrapper
bytes stand for the serialized structured-value sequence. -/

/-- Modelled from the spec: splice the additional payload after the
original payload as a length-prefixed trailing region. -/
def writeWrappedPayload (originalPayload additionalPayload : List Nat) : List Nat :=
  originalPayload ++ (additionalPayload ++ toBytes 8 additionalPayload.length)

/-- Modelled from the spec: read the trailing length-prefixed region off
the end of the payload, returning the truncated original payload and the
wrapper bytes; fail when the trailing length does not fit. -/
def readWrappedPayload (payload : List Nat) : Option (List Nat × List Nat) :=
  if 8 ≤ payload.length then
    if fromBytes (payload.drop (payload.length - 8)) + 8 ≤ payload.length then
      some
        (payload.take
          (payload.length - 8 - fromBytes (payload.drop (payload.length - 8))),
         (payload.take (payload.length - 8)).drop
          (payload.length - 8 - fromBytes (payload.drop (payload.length - 8))))
    else none
  else none

/-- C5: unwrap after wrap restores the original payload bytes exactly
and returns the wrapper bytes unchanged.  The hypothesis says the
wrapper length fits its 8-byte field, which `size_t` guarantees. -/
theorem writeWrapped_readWrapped_roundTrip
    (originalPayload additionalPayload : List Nat)
    (h : additionalPayload.length < 2 ^ 64) :
    readWrappedPayload (writeWrappedPayload originalPayload additionalPayload) =
      some (originalPayload, additionalPayload) := by
  have hT : (toBytes 8 additionalPayload.length).length = 8 :=
    toBytes_length 8 additionalPayload.length
  have hassoc : writeWrappedPayload originalPayload additionalPayload =
      (originalPayload ++ additionalPayload) ++ toBytes 8 additionalPayload.length := by
    rw [writeWrappedPayload, List.append_assoc]
  have hlen : (writeWrappedPayload originalPayload additionalPayload).length =
      originalPayload.length + additionalPayload.length + 8 := by
    rw [hassoc]
    simp [hT]
    omega
  have hidx : (writeWrappedPayload originalPayload additionalPayload).length - 8 =
      originalPayload.length + additionalPayload.length := by
    rw [hlen]
    omega
  have hdrop : (writeWrappedPayload originalPayload additionalPayload).drop
      ((writeWrappedPayload originalPayload additionalPayload).length - 8) =
      toBytes 8 additionalPayload.length := by
    rw [hidx, hassoc]
    exact List.drop_left' (by simp)
  have htakeO : (writeWrappedPayload originalPayload additionalPayload).take
      originalPayload.length = originalPayload := by
    rw [writeWrappedPayload]
    exact List.take_left' rfl
  have htakeOW : (writeWrappedPayload originalPayload additionalPayload).take
      (originalPayload.length + additionalPayload.length) =
      originalPayload ++ additionalPayload := by
    rw [hassoc]
    exact List.take_left' (by simp)
  unfold readWrappedPayload
  rw [hdrop, fromBytes_toBytes_of_lt h, hlen]
  rw [if_pos (by omega), if_pos (by omega)]
  have e2 : originalPayload.length + additionalPayload.length + 8 - 8 =
      originalPayload.length + additionalPayload.length := by omega
  rw [e2]
  have e1 : originalPayload.length + additionalPayload.length -
      additionalPayload.length = originalPayload.length := by omega
  rw [e1, htakeO, htakeOW, List.drop_left]

theorem c5_wrap_unwrap_witness :
    readWrappedPayload (writeWrappedPayload [1, 2, 3] [10, 20]) =
      some ([1, 2, 3], [10, 20]) :=
  writeWrapped_readWrapped_roundTrip [1, 2, 3] [10, 20] (by decide)

/-! ### Message dispatcher (responses)

Modelled from the spec: the body of `deserializeResponse` is not under
src/ (utils.h only declares it).  A response carries a message-type tag
and an opaque payload.  Known response tags decode into command objects
wrapping the payload (the generic structured-value deserializer is out
of scope); the wrapped-response tag recovers the inner payload through
the wrapped-payload splicer together with the inner tag carried
alongside it (the first wrapper byte here) and recursively decodes it as
an ordinary response, at depth one in current usage; the error sentinel
converts the decoded error string into a raised error; every tag outside
the known set is an unrecognized-message-type error. -/

inductive MessageType where
  | scriptRet
  | pythonRet
  | remoteRetCreated
  | forwardAutogradResp
  | exception
  | unknown (tag : Nat)
  deriving DecidableEq, Repr

structure Message where
  msgType : MessageType
  payload : List Nat
  deriving DecidableEq, Repr

/-- Decoded command objects, one per known non-error response tag. -/
inductive RpcCommand where
  | scriptRet (payload : List Nat)
  | pythonRet (payload : List Nat)
  | remoteRetCreated (payload : List Nat)
  deriving DecidableEq, Repr

/-- Errors a decode can raise: a remote failure carrying the decoded
error string, an unrecognized tag, a framing error in the wrapped
payload, or over-deep nesting of wrapped responses. -/
inductive RpcError where
  | remote (msg : List Nat)
  | unknownType (tag : Nat)
  | format
  | nested
  deriving DecidableEq, Repr

/-- Wire code of the inner tag carried in a wrapped response's wrapper. -/
def decodeTag (n : Nat) : MessageType :=
  if n = 0 then .scriptRet
  else if n = 1 then .pythonRet
  else if n = 2 then .remoteRetCreated
  else if n = 3 then .forwardAutogradResp
  else if n = 4 then .exception
  else .unknown n

/-- Modelled from the spec: response decoding with a fuel bound on the
wrapped-response nesting depth (depth one in current usage). -/
def deserializeResponseFuel : Nat → Message → Except RpcError (RpcCommand × MessageType)
  | _, ⟨.scriptRet, p⟩ => .ok (.scriptRet p, .scriptRet)
  | _, ⟨.pythonRet, p⟩ => .ok (.pythonRet p, .pythonRet)
  | _, ⟨.remoteRetCreated, p⟩ => .ok (.remoteRetCreated p, .remoteRetCreated)
  | _, ⟨.exception, p⟩ => .error (.remote p)
  | _, ⟨.unknown n, _⟩ => .error (.unknownType n)
  | 0, ⟨.forwardAutogradResp, _⟩ => .error .nested
  | f + 1, ⟨.forwardAutogradResp, p⟩ =>
      match readWrappedPayload p with
      | none => .error .format
      | some (_, []) => .error .format
      | some (inner, t :: _) => deserializeResponseFuel f ⟨decodeTag t, inner⟩

/-- Modelled from the spec: `deserializeResponse` decodes a response
message into a command object and reports the unwrapped tag. -/
def deserializeResponse (m : Message) : Except RpcError (RpcCommand × MessageType) :=
  deserializeResponseFuel 1 m

/-- C6: a response tagged with the error sentinel becomes a raised error
carrying exactly the decoded error string — never a normal command
object — and every remote error the decoder raises arises from that
sentinel conversion: directly, or through the single unwrapping level of
a wrapped response whose carried inner tag is the sentinel. -/
theorem deserializeResponse_error_path :
    (∀ m : Message, m.msgType = MessageType.exception →
      deserializeResponse m = Except.error (RpcError.remote m.payload)) ∧
    (∀ (m : Message) (s : List Nat),
      deserializeResponse m = Except.error (RpcError.remote s) →
      (m.msgType = MessageType.exception ∧ s = m.payload) ∨
      (m.msgType = MessageType.forwardAutogradResp ∧
        ∃ inner t rest,
          readWrappedPayload m.payload = some (inner, t :: rest) ∧
          decodeTag t = MessageType.exception ∧ s = inner)) := by
  constructor
  · intro m h
    obtain ⟨mt, p⟩ := m
    cases h
    rfl
  · intro m s h
    obtain ⟨mt, p⟩ := m
    cases mt with
    | scriptRet => exact absurd h (by simp [deserializeResponse, deserializeResponseFuel])
    | pythonRet => exact absurd h (by simp [deserializeResponse, deserializeResponseFuel])
    | remoteRetCreated =>
        exact absurd h (by simp [deserializeResponse, deserializeResponseFuel])
    | exception =>
        left
        refine ⟨rfl, ?_⟩
        simp only [deserializeResponse, deserializeResponseFuel,
          Except.error.injEq, RpcError.remote.injEq] at h
        exact h.symm
    | unknown n =>
        exact absurd h (by simp [deserializeResponse, deserializeResponseFuel])
    | forwardAutogradResp =>
        right
        refine ⟨rfl, ?_⟩
        simp only [deserializeResponse, deserializeResponseFuel] at h
        cases hw : readWrappedPayload p with
        | none => rw [hw] at h; exact absurd h (by simp)
        | some q =>
            obtain ⟨inner, wrapper⟩ := q
            cases wrapper with
            | nil => rw [hw] at h; exact absurd h (by simp)
            | cons t rest =>
                rw [hw] at h
                replace h : deserializeResponseFuel 0 ⟨decodeTag t, inner⟩ =
                    Except.error (RpcError.remote s) := h
                refine ⟨inner, t, rest, rfl, ?_⟩
                cases hd : decodeTag t with
                | exception =>
                    rw [hd] at h
                    simp only [deserializeResponseFuel, Except.error.injEq,
                      RpcError.remote.injEq] at h
                    exact ⟨rfl, h.symm⟩
                | scriptRet =>
                    rw [hd] at h
                    exact absurd h (by simp [deserializeResponseFuel])
                | pythonRet =>
                    rw [hd] at h
                    exact absurd h (by simp [deserializeResponseFuel])
                | remoteRetCreated =>
                    rw [hd] at h
                    exact absurd h (by simp [deserializeResponseFuel])
                | forwardAutogradResp =>
                    rw [hd] at h
                    exact absurd h (by simp [deserializeResponseFuel])
                | unknown n =>
                    rw [hd] at h
                    exact absurd h (by simp [deserializeResponseFuel])

theorem c6_error_propagation_witness :
    deserializeResponse ⟨MessageType.exception, [88]⟩ =
      Except.error (RpcError.remote [88]) :=
  deserializeResponse_error_path.1 ⟨MessageType.exception, [88]⟩ rfl

/-! ### Lazy per-device stream context

`LazyStreamContext` is fully defined inline in utils.h (lines 96-179);
this embedding mirrors those member functions.  Streams are device
handles, modelled as naturals; the `std::function` stream creator is an
`Option` (an empty function is `none` — the only emptiness the source
ever checks); the unordered map from device index to stream is an
association list; the event recorded and blocked by
`waitForCurrentStreams` acts only on device hardware, so it is returned
as an explicit trace of hand-offs. -/

/-- The two tensor attributes `waitForCurrentStreams` consults. -/
structure RpcTensor where
  isCuda : Bool
  deviceIndex : Nat
  deriving DecidableEq, Repr

structure LazyStreamContext where
  device_type_ : Nat
  stream_creator_ : Option (Nat → Nat)
  current_stream_provider_ : Nat → Nat
  streams_ : List (Nat × Nat)

/-- utils.h lines 181-189: a fresh context starts with no streams. -/
def createLazyStreamContext (device_type : Nat) (stream_creator : Option (Nat → Nat))
    (current_stream_provider : Nat → Nat) : LazyStreamContext :=
  ⟨device_type, stream_creator, current_stream_provider, []⟩

/-- Association-list find, the `streams_.find(index)` of the source. -/
def slookup : List (Nat × Nat) → Nat → Option Nat
  | [], _ => none
  | e :: rest, i => if e.1 = i then some e.2 else slookup rest i

/-- `getStream` (utils.h lines 145-160): throw (`none`) when the context
has no stream creator; otherwise return the stream cached for the
device index, or create one and record it on first use. -/
def getStream (c : LazyStreamContext) (index : Nat) :
    Option (Nat × LazyStreamContext) :=
  match c.stream_creator_ with
  | none => none
  | some sc =>
      match slookup c.streams_ index with
      | some s => some (s, c)
      | none =>
          some (sc index,
            { c with streams_ := c.streams_ ++ [(index, sc index)] })

/-- One event-record-then-block pair issued by `waitForCurrentStreams`:
an event is recorded on the caller's current stream for the device and
blocks the context's reserved stream for that device. -/
structure HandOff where
  device : Nat
  recordedOn : Nat
  blocks : Nat
  deriving DecidableEq, Repr

/-- The `getStream(tensor.device().index())` call whose returned stream
is discarded — it only forces lazy creation. -/
def touchStream (c : LazyStreamContext) (index : Nat) : LazyStreamContext :=
  match getStream c index with
  | some p => p.2
  | none => c

/-- The first loop of `waitForCurrentStreams`: force lazy stream
creation for the device of every cuda tensor. -/
def touchAll (c : LazyStreamContext) (tensors : List RpcTensor) : LazyStreamContext :=
  tensors.foldl (fun acc t => if t.isCuda then touchStream acc t.deviceIndex else acc) c

/-- `waitForCurrentStreams` (utils.h lines 111-127): no-op without a
stream creator; otherwise touch the stream of every cuda tensor's
device, then for every tracked device record an event on the current
stream for that device and block the tracked stream on it. -/
def waitForCurrentStreams (c : LazyStreamContext) (tensors : List RpcTensor) :
    LazyStreamContext × List HandOff :=
  match c.stream_creator_ with
  | none => (c, [])
  | some _ =>
      (touchAll c tensors,
        (touchAll c tensors).streams_.map fun e =>
          ⟨e.1, (touchAll c tensors).current_stream_provider_ e.1, e.2⟩)

/-- `getReservedStreams` (utils.h lines 130-141): empty without a stream
creator, else every stream recorded in the map. -/
def getReservedStreams (c : LazyStreamContext) : List Nat :=
  match c.stream_creator_ with
  | none => []
  | some _ => c.streams_.map Prod.snd

/-- `devices` (utils.h lines 162-168): the set of device indices in the
stream map. -/
def devices (c : LazyStreamContext) : Finset Nat :=
  (c.streams_.map Prod.fst).toFinset

/-- Context states reachable from `a` by any sequence of `getStream` and
`waitForCurrentStreams` calls. -/
inductive Evolves : LazyStreamContext → LazyStreamContext → Prop where
  | refl (c : LazyStreamContext) : Evolves c c
  | get {a b c : LazyStreamContext} {i s : Nat} :
      Evolves a b → getStream b i = some (s, c) → Evolves a c
  | wait {a b : LazyStreamContext} (tensors : List RpcTensor) :
      Evolves a b → Evolves a (waitForCurrentStreams b tensors).1

theorem slookup_append (l1 l2 : List (Nat × Nat)) (i : Nat) :
    slookup (l1 ++ l2) i =
      match slookup l1 i with
      | some s => some s
      | none => slookup l2 i := by
  induction l1 with
  | nil => simp [slookup]
  | cons e rest ih =>
      by_cases h : e.1 = i
      · simp [slookup, h]
      · simp [slookup, h, ih]

theorem getStream_state {c : LazyStreamContext} {i s : Nat}
    {c2 : LazyStreamContext} (h : getStream c i = some (s, c2)) :
    c2.device_type_ = c.device_type_ ∧
    c2.stream_creator_ = c.stream_creator_ ∧
    c2.current_stream_provider_ = c.current_stream_provider_ ∧
    (c2.streams_ = c.streams_ ∨ c2.streams_ = c.streams_ ++ [(i, s)]) := by
  unfold getStream at h
  cases hc : c.stream_creator_ with
  | none => rw [hc] at h; exact absurd h (by simp)
  | some sc =>
      rw [hc] at h
      cases hl : slookup c.streams_ i with
      | some s0 =>
          rw [hl] at h
          simp only [Option.some.injEq, Prod.mk.injEq] at h
          rw [← h.2]
          exact ⟨rfl, hc, rfl, Or.inl rfl⟩
      | none =>
          rw [hl] at h
          simp only [Option.some.injEq, Prod.mk.injEq] at h
          rw [← h.2, ← h.1]
          exact ⟨rfl, rfl, rfl, Or.inr rfl⟩

theorem getStream_lookup {c : LazyStreamContext} {i s : Nat}
    {c2 : LazyStreamContext} (h : getStream c i = some (s, c2)) :
    slookup c2.streams_ i = some s := by
  unfold getStream at h
  cases hc : c.stream_creator_ with
  | none => rw [hc] at h; exact absurd h (by simp)
  | some sc =>
      rw [hc] at h
      cases hl : slookup c.streams_ i with
      | some s0 =>
          rw [hl] at h
          simp only [Option.some.injEq, Prod.mk.injEq] at h
          rw [← h.2, ← h.1]
          exact hl
      | none =>
          rw [hl] at h
          simp only [Option.some.injEq, Prod.mk.injEq] at h
          rw [← h.2, ← h.1]
          simp [slookup_append, hl, slookup]

theorem getStream_mono {c : LazyStreamContext} {i s d x : Nat}
    {c2 : LazyStreamContext} (h : getStream c i = some (s, c2))
    (hd : slookup c.streams_ d = some x) :
    slookup c2.streams_ d = some x := by
  rcases (getStream_state h).2.2.2 with he | he
  · rw [he]; exact hd
  · rw [he, slookup_append, hd]

theorem getStream_creator_none {c : LazyStreamContext} {i : Nat}
    (h : c.stream_creator_ = none) : getStream c i = none := by
  unfold getStream
  rw [h]

theorem getStream_of_some {c : LazyStreamContext} {sc : Nat → Nat}
    (h : c.stream_creator_ = some sc) (i : Nat) :
    ∃ s c2, getStream c i = some (s, c2) := by
  unfold getStream
  rw [h]
  cases hl : slookup c.streams_ i with
  | some s => exact ⟨s, c, rfl⟩
  | none => exact ⟨sc i, _, rfl⟩

theorem touchStream_mono {c : LazyStreamContext} {i d x : Nat}
    (hd : slookup c.streams_ d = some x) :
    slookup (touchStream c i).streams_ d = some x := by
  unfold touchStream
  cases hg : getStream c i with
  | none => exact hd
  | some p => exact getStream_mono hg hd

theorem touchStream_fields (c : LazyStreamContext) (i : Nat) :
    (touchStream c i).stream_creator_ = c.stream_creator_ ∧
    (touchStream c i).current_stream_provider_ = c.current_stream_provider_ := by
  unfold touchStream
  cases hg : getStream c i with
  | none => exact ⟨rfl, rfl⟩
  | some p =>
      have hs := getStream_state hg
      exact ⟨hs.2.1, hs.2.2.1⟩

theorem touchStream_lookup_self {c : LazyStreamContext} {sc : Nat → Nat}
    (h : c.stream_creator_ = some sc) (i : Nat) :
    ∃ x, slookup (touchStream c i).streams_ i = some x := by
  obtain ⟨s, c2, hg⟩ := getStream_of_some h i
  unfold touchStream
  rw [hg]
  exact ⟨s, getStream_lookup hg⟩

theorem touchAll_fields (tensors : List RpcTensor) :
    ∀ c : LazyStreamContext,
      (touchAll c tensors).stream_creator_ = c.stream_creator_ ∧
      (touchAll c tensors).current_stream_provider_ = c.current_stream_provider_ := by
  induction tensors with
  | nil => intro c; exact ⟨rfl, rfl⟩
  | cons t ts ih =>
      intro c
      have hstep := ih (if t.isCuda then touchStream c t.deviceIndex else c)
      have hfields := touchStream_fields c t.deviceIndex
      by_cases hcu : t.isCuda = true
      · simp only [touchAll, List.foldl_cons, hcu, if_pos] at hstep ⊢
        exact ⟨hstep.1.trans hfields.1, hstep.2.trans hfields.2⟩
      · simp only [touchAll, List.foldl_cons, hcu, if_false] at hstep ⊢
        simpa [hcu] using hstep

theorem touchAll_mono (tensors : List RpcTensor) :
    ∀ (c : LazyStreamContext) (d x : Nat),
      slookup c.streams_ d = some x →
      slookup (touchAll c tensors).streams_ d = some x := by
  induction tensors with
  | nil => intro c d x hd; exact hd
  | cons t ts ih =>
      intro c d x hd
      simp only [touchAll, List.foldl_cons]
      by_cases hcu : t.isCuda = true
      · simp only [hcu, if_pos]
        exact ih _ d x (touchStream_mono hd)
      · simp only [hcu, if_false]
        exact ih _ d x (by simpa [hcu] using hd)

theorem touchAll_touches (tensors : List RpcTensor) :
    ∀ (c : LazyStreamContext) (sc : Nat → Nat),
      c.stream_creator_ = some sc →
      ∀ t ∈ tensors, t.isCuda = true →
        ∃ x, slookup (touchAll c tensors).streams_ t.deviceIndex = some x := by
  induction tensors with
  | nil => intro c sc hc t ht; exact absurd ht (List.not_mem_nil t)
  | cons u us ih =>
      intro c sc hc t ht hcu
      rcases List.mem_cons.mp ht with he | hm
      · subst he
        simp only [touchAll, List.foldl_cons, hcu, if_pos]
        obtain ⟨x, hx⟩ := touchStream_lookup_self hc t.deviceIndex
        exact ⟨x, touchAll_mono us _ _ _ hx⟩
      · simp only [touchAll, List.foldl_cons]
        by_cases hu : u.isCuda = true
        · simp only [hu, if_pos]
          have hc2 : (touchStream c u.deviceIndex).stream_creator_ = some sc :=
            (touchStream_fields c u.deviceIndex).1.trans hc
          exact ih _ sc hc2 t hm hcu
        · simp only [hu, if_false]
          exact ih _ sc (by simpa [hu] using hc) t hm hcu

theorem slookup_none_iff (l : List (Nat × Nat)) (d : Nat) :
    slookup l d = none ↔ d ∉ l.map Prod.fst := by
  induction l with
  | nil => simp [slookup]
  | cons e rest ih =>
      by_cases h : e.1 = d
      · simp [slookup, h]
      · simp [slookup, h, ih, Ne.symm h]

theorem slookup_isSome_iff (l : List (Nat × Nat)) (d : Nat) :
    (∃ x, slookup l d = some x) ↔ d ∈ l.map Prod.fst := by
  constructor
  · intro ⟨x, hx⟩
    by_contra hmem
    rw [← slookup_none_iff] at hmem
    rw [hmem] at hx
    exact Option.noConfusion hx
  · intro hmem
    cases hl : slookup l d with
    | some x => exact ⟨x, rfl⟩
    | none => exact absurd hmem ((slookup_none_iff l d).mp hl)

theorem getStream_nodup {c : LazyStreamContext} {i s : Nat}
    {c2 : LazyStreamContext} (h : getStream c i = some (s, c2))
    (hn : (c.streams_.map Prod.fst).Nodup) :
    (c2.streams_.map Prod.fst).Nodup := by
  unfold getStream at h
  cases hc : c.stream_creator_ with
  | none => rw [hc] at h; exact absurd h (by simp)
  | some sc =>
      rw [hc] at h
      cases hl : slookup c.streams_ i with
      | some s0 =>
          rw [hl] at h
          simp only [Option.some.injEq, Prod.mk.injEq] at h
          rw [← h.2]
          exact hn
      | none =>
          rw [hl] at h
          simp only [Option.some.injEq, Prod.mk.injEq] at h
          rw [← h.2]
          have hmem : i ∉ c.streams_.map Prod.fst := (slookup_none_iff _ _).mp hl
          simp only [List.map_append, List.map_cons, List.map_nil]
          rw [List.nodup_append]
          refine ⟨hn, List.nodup_singleton i, ?_⟩
          intro a ha hb
          rw [List.mem_singleton] at hb
          exact hmem (hb ▸ ha)

theorem touchStream_nodup {c : LazyStreamContext} {i : Nat}
    (hn : (c.streams_.map Prod.fst).Nodup) :
    ((touchStream c i).streams_.map Prod.fst).Nodup := by
  unfold touchStream
  cases hg : getStream c i with
  | none => exact hn
  | some p => exact getStream_nodup hg hn

theorem touchAll_nodup (tensors : List RpcTensor) :
    ∀ c : LazyStreamContext, (c.streams_.map Prod.fst).Nodup →
      ((touchAll c tensors).streams_.map Prod.fst).Nodup := by
  induction tensors with
  | nil => intro c hn; exact hn
  | cons t ts ih =>
      intro c hn
      simp only [touchAll, List.foldl_cons]
      by_cases hcu : t.isCuda = true
      · simp only [hcu, if_pos]
        exact ih _ (touchStream_nodup hn)
      · simp only [hcu, if_false]
        exact ih _ (by simpa [hcu] using hn)

theorem waitForCurrentStreams_fst (c : LazyStreamContext) (tensors : List RpcTensor) :
    (waitForCurrentStreams c tensors).1 =
      match c.stream_creator_ with
      | none => c
      | some _ => touchAll c tensors := by
  unfold waitForCurrentStreams
  cases c.stream_creator_ <;> rfl

theorem evolves_fields {a b : LazyStreamContext} (h : Evolves a b) :
    b.stream_creator_ = a.stream_creator_ ∧
    b.current_stream_provider_ = a.current_stream_provider_ := by
  induction h with
  | refl => exact ⟨rfl, rfl⟩
  | get hab hg ih =>
      have hs := getStream_state hg
      exact ⟨hs.2.1.trans ih.1, hs.2.2.1.trans ih.2⟩
  | wait tensors hab ih =>
      rename_i b2
      rw [waitForCurrentStreams_fst]
      cases hc : b2.stream_creator_ with
      | none => exact ih
      | some sc =>
          have hf := touchAll_fields tensors b2
          exact ⟨hf.1.trans ih.1, hf.2.trans ih.2⟩

theorem evolves_mono {a b : LazyStreamContext} (h : Evolves a b) :
    ∀ d x, slookup a.streams_ d = some x → slookup b.streams_ d = some x := by
  induction h with
  | refl => intro d x hd; exact hd
  | get hab hg ih =>
      intro d x hd
      exact getStream_mono hg (ih d x hd)
  | wait tensors hab ih =>
      rename_i b2
      intro d x hd
      rw [waitForCurrentStreams_fst]
      cases hc : b2.stream_creator_ with
      | none => exact ih d x hd
      | some sc => exact touchAll_mono tensors b2 d x (ih d x hd)

theorem evolves_nodup {a b : LazyStreamContext} (h : Evolves a b)
    (hn : (a.streams_.map Prod.fst).Nodup) :
    (b.streams_.map Prod.fst).Nodup := by
  induction h with
  | refl => exact hn
  | get hab hg ih => exact getStream_nodup hg ih
  | wait tensors hab ih =>
      rename_i b2
      rw [waitForCurrentStreams_fst]
      cases hc : b2.stream_creator_ with
      | none => exact ih
      | some sc => exact touchAll_nodup tensors b2 ih

theorem evolves_none_streams {a b : LazyStreamContext} (h : Evolves a b)
    (hc : a.stream_creator_ = none) : b.streams_ = a.streams_ := by
  induction h with
  | refl => rfl
  | get hab hg ih =>
      rename_i b2 c2 i s
      have : b2.stream_creator_ = none := (evolves_fields hab).1.trans hc
      exact absurd hg (by rw [getStream_creator_none this]; simp)
  | wait tensors hab ih =>
      rename_i b2
      rw [waitForCurrentStreams_fst]
      have : b2.stream_creator_ = none := (evolves_fields hab).1.trans hc
      rw [this]
      exact ih

/-- C7: on a stream-backed context, `waitForCurrentStreams` forces lazy
stream creation for the device of every cuda tensor in the set — so each
such device becomes tracked — and then, for every tracked device,
records one event on the caller's currently-active stream for that
device and blocks the tracked stream on it; on a context without a
stream creator the call is a complete no-op, leaving the context
unchanged and issuing nothing. -/
theorem waitForCurrentStreams_spec (c : LazyStreamContext)
    (tensors : List RpcTensor) :
    (c.stream_creator_ = none → waitForCurrentStreams c tensors = (c, [])) ∧
    (∀ f, c.stream_creator_ = some f →
      (∀ t ∈ tensors, t.isCuda = true →
        ∃ x, slookup (waitForCurrentStreams c tensors).1.streams_
          t.deviceIndex = some x) ∧
      (waitForCurrentStreams c tensors).2 =
        (waitForCurrentStreams c tensors).1.streams_.map
          (fun e => HandOff.mk e.1 (c.current_stream_provider_ e.1) e.2)) := by
  cases hc0 : c.stream_creator_ with
  | none =>
      refine ⟨fun _ => ?_, fun f hf => ?_⟩
      · unfold waitForCurrentStreams
        rw [hc0]
      · exact Option.noConfusion hf
  | some f0 =>
      refine ⟨fun hno => ?_, fun f hf => ⟨?_, ?_⟩⟩
      · exact Option.noConfusion hno
      · intro t ht hcu
        have hfst : (waitForCurrentStreams c tensors).1 = touchAll c tensors := by
          rw [waitForCurrentStreams_fst, hc0]
        rw [hfst]
        exact touchAll_touches tensors c f0 hc0 t ht hcu
      · have hfst : (waitForCurrentStreams c tensors).1 = touchAll c tensors := by
          rw [waitForCurrentStreams_fst, hc0]
        have hsnd : (waitForCurrentStreams c tensors).2 =
            (touchAll c tensors).streams_.map
              (fun e => HandOff.mk e.1
                ((touchAll c tensors).current_stream_provider_ e.1) e.2) := by
          unfold waitForCurrentStreams
          rw [hc0]
        rw [hsnd, hfst, (touchAll_fields tensors c).2]

theorem c7_noop_witness :
    waitForCurrentStreams (⟨3, none, fun _ => 5, []⟩ : LazyStreamContext)
      [⟨true, 0⟩] = ((⟨3, none, fun _ => 5, []⟩ : LazyStreamContext), []) :=
  (waitForCurrentStreams_spec ⟨3, none, fun _ => 5, []⟩ [⟨true, 0⟩]).1 rfl

/-- C8: requesting a stream on a context built without stream support
(an empty stream creator, e.g. a CPU-only context) always fails — the
source throws, modelled as `none` — for every device index. -/
theorem getStream_unsupported (c : LazyStreamContext) (index : Nat)
    (h : c.stream_creator_ = none) : getStream c index = none := by
  unfold getStream
  rw [h]

theorem c8_unsupported_witness :
    getStream (⟨0, none, fun _ => 0, []⟩ : LazyStreamContext) 3 = none :=
  getStream_unsupported ⟨0, none, fun _ => 0, []⟩ 3 rfl

/-- C9: `getStream` creates and caches a stream on the first request for
a device index, and after any further sequence of operations a request
for the same index returns the same cached stream with the state
untouched; moreover in every context state reachable from a fresh
context the stream map holds at most one entry per device index. -/
theorem getStream_cached_invariant :
    (∀ (c c2 c3 : LazyStreamContext) (i s : Nat),
      getStream c i = some (s, c2) → Evolves c2 c3 →
      getStream c3 i = some (s, c3)) ∧
    (∀ (dt : Nat) (sc : Option (Nat → Nat)) (csp : Nat → Nat)
      (c : LazyStreamContext),
      Evolves (createLazyStreamContext dt sc csp) c →
      (c.streams_.map Prod.fst).Nodup) := by
  constructor
  · intro c c2 c3 i s hg hev
    have hl : slookup c3.streams_ i = some s :=
      evolves_mono hev i s (getStream_lookup hg)
    have hsc : ∃ sc, c.stream_creator_ = some sc := by
      cases hcs : c.stream_creator_ with
      | none =>
          rw [getStream_creator_none hcs] at hg
          exact Option.noConfusion hg
      | some sc => exact ⟨sc, rfl⟩
    obtain ⟨sc, hcs⟩ := hsc
    have hc3 : c3.stream_creator_ = some sc :=
      (evolves_fields hev).1.trans ((getStream_state hg).2.1.trans hcs)
    unfold getStream
    rw [hc3, hl]
  · intro dt sc csp c hev
    exact evolves_nodup hev (by simp [createLazyStreamContext])

theorem c9_cached_witness :
    getStream (⟨0, some fun _ => 7, fun _ => 9, [(0, 7)]⟩ : LazyStreamContext) 0 =
      some (7, (⟨0, some fun _ => 7, fun _ => 9, [(0, 7)]⟩ : LazyStreamContext)) :=
  getStream_cached_invariant.1 ⟨0, some fun _ => 7, fun _ => 9, []⟩ _ _ 0 7 rfl
    (Evolves.refl _)

/-- C10: in every reachable context state, `getReservedStreams` and
`devices` describe the same tracked-device map — one reserved stream per
tracked device, sets of equal size, a device tracked exactly when its
lookup succeeds, and exactly one map entry per tracked device; on a
context without a stream creator both are always empty, because no
operation can ever add a stream to such a context. -/
theorem reserved_devices_consistency :
    ∀ (dt : Nat) (sc : Option (Nat → Nat)) (csp : Nat → Nat)
      (c : LazyStreamContext),
      Evolves (createLazyStreamContext dt sc csp) c →
      ((getReservedStreams c).length = (devices c).card ∧
       (∀ d, d ∈ devices c ↔ ∃ x, slookup c.streams_ d = some x) ∧
       (∀ d, d ∈ devices c → (c.streams_.map Prod.fst).count d = 1) ∧
       (sc = none → getReservedStreams c = [] ∧ devices c = ∅)) := by
  intro dt sc csp c hev
  have hnodup : (c.streams_.map Prod.fst).Nodup :=
    evolves_nodup hev (by simp [createLazyStreamContext])
  have hcr : c.stream_creator_ = sc := (evolves_fields hev).1
  refine ⟨?_, ?_, ?_, ?_⟩
  · cases hsc : sc with
    | none =>
        have hstr : c.streams_ = [] :=
          evolves_none_streams hev (by simp [createLazyStreamContext, hsc])
        simp [getReservedStreams, hcr, hsc, devices, hstr]
    | some f =>
        have hres : getReservedStreams c = c.streams_.map Prod.snd := by
          unfold getReservedStreams
          rw [hcr, hsc]
        rw [hres, devices, List.toFinset_card_of_nodup hnodup]
        simp
  · intro d
    rw [devices, List.mem_toFinset]
    exact (slookup_isSome_iff c.streams_ d).symm
  · intro d hd
    rw [devices, List.mem_toFinset] at hd
    exact List.count_eq_one_of_mem hnodup hd
  · intro hsc
    have hstr : c.streams_ = [] :=
      evolves_none_streams hev (by simp [createLazyStreamContext, hsc])
    constructor
    · unfold getReservedStreams
      rw [hcr, hsc]
    · rw [devices, hstr]
      rfl

theorem c10_consistency_witness :
    getReservedStreams (createLazyStreamContext 0 none (fun _ => 0)) = [] ∧
    devices (createLazyStreamContext 0 none (fun _ => 0)) = ∅ :=
  (reserved_devices_consistency 0 none (fun _ => 0) _ (Evolves.refl _)).2.2.2 rfl

end RpcUtils
